import Mathlib

/-!
Verification of the incremental document merge engine of
`scripts/fetch_contributions.py` (function `update_projects_file` and the
entry point `main`).

Python strings are modelled as `List Char`; `str.find(sub, start)` becomes
`findSub` returning `Option Nat` (Python's `-1` is `none`), slicing becomes
`List.take` / `List.drop`, and the `in` substring test becomes `hasSub`.
The merge loop over `categorized_entries.items()` (a dict in insertion
order) becomes a fold over an association list.
-/

namespace Fetch

abbrev Str := List Char

/-- Characters removed by Python `str.rstrip()` (the ASCII whitespace that
can actually occur in this document). -/
def isPySpace (c : Char) : Bool :=
  c = ' ' || c = '\t' || c = '\n' || c = '\r' || c = '\x0b' || c = '\x0c'

/-- Python `str.rstrip()`. -/
def rstrip (s : Str) : Str := (s.reverse.dropWhile isPySpace).reverse

/-- Scan helper for `findSub`: first index `≥ i` (counting from the start of
the original scan) at which `sub` is a prefix of the remaining text. -/
def findAux (sub : Str) : Str → Nat → Option Nat
  | [], i => if sub.isPrefixOf [] then some i else none
  | s@(_ :: t), i => if sub.isPrefixOf s then some i else findAux sub t (i + 1)

/-- Python `content.find(sub, start)`: index of the first occurrence of
`sub` in `s` at an index `≥ start`, `none` for Python's `-1`. -/
def findSub (sub s : Str) (start : Nat) : Option Nat :=
  (findAux sub (s.drop start) 0).map (· + start)

/-- Python `sub in s` (substring containment). -/
def hasSub (sub s : Str) : Bool := (findSub sub s 0).isSome

/-- The start marker of the ephemeral section, exactly as the byte sequence
spelled in the source: `"## üÜï Recent Contributions"`. -/
def recentMarker : Str := "## üÜï Recent Contributions".data

/-- The trailer marker `"\n---\n\n*Last updated:"` (20 characters, the
literal `20` hard-coded in the source). -/
def trailerMarker : Str := "\n---\n\n*Last updated:".data

/-- The anchor heading `"## Notable Open-Source Contributions"`. -/
def notableSection : Str := "## Notable Open-Source Contributions".data

def newlineStr : Str := "\n".data

/-- `section_pattern = f"### {category}"`. -/
def sectionPattern (category : Str) : Str := "### ".data ++ category

/-- The boundary pattern `"\n##"` used to find the next section. -/
def nextHeadingPat : Str := "\n".data ++ "##".data

/-- Removal of the old "Recent Contributions" section (source lines
203-212).  Mirrors the Python exactly: when the start marker is present but
the trailer `"\n---\n\n*Last updated:"` is not found after it, the outer
`if end != -1` guard fails and the content is returned unchanged; when the
trailer is found but no newline follows it, the text is truncated to
`content[:start].rstrip()`. -/
def pruneRecentSection (content : Str) : Str :=
  match findSub recentMarker content 0 with
  | none => content
  | some start =>
    match findSub trailerMarker content start with
    | none => content
    | some e =>
      match findSub newlineStr content (e + 20) with
      | some e2 => rstrip (content.take start) ++ content.drop e2
      | none => rstrip (content.take start)

/-- One candidate entry, with the fields built by
`generate_project_entries`. -/
structure Entry where
  repo : Str
  description : Str
  pr_url : Str
  pr_count : Nat
deriving Repr, DecidableEq

/-- The formatted bullet line
`- **[repo](https://github.com/repo)** - description ([PRs](pr_url))\n`
(source lines 230 and 275; both sites build the identical text). -/
def entryLine (e : Entry) : Str :=
  "- **[".data ++ e.repo ++ "](https://github.com/".data ++ e.repo
    ++ ")** - ".data ++ e.description ++ " ([PRs](".data ++ e.pr_url
    ++ "))".data ++ "\n".data

/-- The canonical reference substring `f"github.com/{repo_name}"` used by
the exact duplicate check (source line 253). -/
def urlStr (repo : Str) : Str := "github.com/".data ++ repo

/-- Python `repo_name.split("/")[-1]`: the text after the last `'/'`. -/
def lastSeg (s : Str) : Str := (s.reverse.takeWhile (fun c => c ≠ '/')).reverse

/-- `repo_name.split("/")[-1].lower()` (repository names are ASCII, so
ASCII lowercasing coincides with Python's). -/
def shortName (repo : Str) : Str := (lastSeg repo).map Char.toLower

/-- The stoplist of overly generic names (source line 258). -/
def stoplist : List Str := ["galaxy".data, "content".data, "utils".data, "tools".data]

/-- Case-insensitive character comparison, the effect of `re.IGNORECASE`
on the ASCII text involved here. -/
def ciChar (a b : Char) : Bool := a.toLower = b.toLower

/-- Case-insensitive prefix test. -/
def ciPrefixOf : Str → Str → Bool
  | [], _ => true
  | _ :: _, [] => false
  | a :: as, b :: bs => ciChar a b && ciPrefixOf as bs

/-- Matcher for the regex tail `[^]]*\]?\*\*`: scan forward over non-`]`
characters until `**` or `]**` starts. -/
def tailMatch : Str → Bool
  | [] => false
  | s@(c :: t) =>
    if ("**".data).isPrefixOf s then true
    else if ("]**".data).isPrefixOf s then true
    else if c = ']' then false
    else tailMatch t

/-- Matcher for `[^]]*name[^]]*\]?\*\*` starting right after the opening
`\*\*`: at each position either the (escaped, case-insensitive) name starts
here and the tail matches after it, or the current character is a legal
`[^]]` character and we advance.  The `\[?` of the source pattern is
dropped: `[` is itself a `[^]]` character, so the optional bracket adds no
matches. -/
def bodyMatch (name : Str) : Str → Bool
  | [] => false
  | s@(c :: t) =>
    (ciPrefixOf name s && tailMatch (s.drop name.length))
      || (c ≠ ']' && bodyMatch name t)

/-- A match of the whole pattern `\*\*\[?[^]]*name[^]]*\]?\*\*` starting
exactly at `s`. -/
def matchAt (name : Str) (s : Str) : Bool :=
  ("**".data).isPrefixOf s && bodyMatch name (s.drop 2)

/-- `re.search(rf"\*\*\[?[^]]*{re.escape(name)}[^]]*\]?\*\*", content,
re.IGNORECASE)` is some match starting at some position (source lines
260-265). -/
def fuzzySearch (name : Str) : Str → Bool
  | [] => matchAt name []
  | s@(_ :: t) => matchAt name s || fuzzySearch name t

/-- The combined duplicate decision for one entry against the current
document text: the exact reference check (source line 253), else the fuzzy
short-name check guarded by the stoplist (source lines 258-265). -/
def dupCheck (e : Entry) (content : Str) : Bool :=
  hasSub (urlStr e.repo) content
    || (!(stoplist.contains (shortName e.repo))
          && fuzzySearch (shortName e.repo) content)

/-- The single in-memory buffer plus the `modified` flag (source line 214). -/
structure MergeState where
  content : Str
  modified : Bool
deriving Repr, DecidableEq

/-- `insert_pos` for an existing section (source lines 241-247 and
269-273): the position of the next `"\n##"` after the section heading, or
the end of the document.  (`section_content` is only ever used through its
length, which makes `insert_pos` exactly this.) -/
def entryInsertPos (content : Str) (section_start : Nat) : Nat :=
  match findSub nextHeadingPat content (section_start + 1) with
  | none => content.length
  | some p => p

/-- The body of the per-entry loop for a category whose section already
exists (source lines 237-278).  The `none` branch of the heading search is
unreachable: the caller only enters this loop after checking
`section_pattern in content`, and the merge only ever inserts text, which
cannot remove an occurrence. -/
def processEntry (category : Str) (st : MergeState) (e : Entry) : MergeState :=
  match findSub (sectionPattern category) st.content 0 with
  | none => st
  | some section_start =>
    if hasSub (urlStr e.repo) st.content then st
    else if !(stoplist.contains (shortName e.repo))
            && fuzzySearch (shortName e.repo) st.content then st
    else
      let insert_pos := entryInsertPos st.content section_start
      { content := st.content.take insert_pos ++ entryLine e
                     ++ st.content.drop insert_pos,
        modified := true }

/-- One iteration of the category loop (source lines 216-278).  If the
section heading is absent and the anchor heading is present, a new section
holding every entry is inserted right after the anchor heading's line with
no duplicate checking; note Python's `content.find("\n", insert_pos) + 1`
turns a failed search (`-1`) into position `0`. -/
def processCategory (st : MergeState) (category : Str) (entries : List Entry) :
    MergeState :=
  if hasSub (sectionPattern category) st.content then
    entries.foldl (processEntry category) st
  else if hasSub notableSection st.content then
    match findSub notableSection st.content 0 with
    | none => st
    | some np =>
      let insert_pos :=
        match findSub newlineStr st.content (np + notableSection.length) with
        | none => 0
        | some nl => nl + 1
      let new_section := "\n".data ++ sectionPattern category ++ "\n".data
        ++ (entries.map entryLine).flatten
      { content := st.content.take insert_pos ++ new_section
                     ++ st.content.drop insert_pos,
        modified := true }
  else st

/-- The whole merge phase on the in-memory buffer: prune the stale section,
then fold the categories in input order starting from `modified = False`. -/
def update_projects_file (categorized_entries : List (Str × List Entry))
    (content : Str) : MergeState :=
  (categorized_entries.foldl (fun st p => processCategory st p.1 p.2)
    { content := pruneRecentSection content, modified := false })

/-- The on-disk file after one run: an empty input returns before the file
is even read (source lines 194-196), and otherwise the buffer is written
back exactly once, at the end, only when the `modified` flag was set
(source lines 280-285). -/
def update_projects_file_write (categorized_entries : List (Str × List Entry))
    (file : Str) : Str :=
  if categorized_entries.isEmpty then file
  else if (update_projects_file categorized_entries file).modified then
    (update_projects_file categorized_entries file).content
  else file

/-! ### The entry point `main` (source lines 291-321)

The external collaborators (GitHub search, AI description generation) are
out of scope; `main` is modelled as the sequence of observable actions it
performs, parameterised by the outcomes of those external calls. -/

inductive Action where
  | configError
  | network
  | fileRead
  | fileWrite
deriving Repr, DecidableEq

/-- `os.environ.get`. -/
def envGet (env : List (Str × Str)) (k : Str) : Option Str :=
  (env.find? (fun p => p.1 == k)).map (fun p => p.2)

/-- Python truthiness of `token` in `if not token`. -/
def pyTruthy : Option Str → Bool
  | none => false
  | some v => !v.isEmpty

def githubTokenVar : Str := "GITHUB_TOKEN".data

/-- The observable action trace of `main`: the token is checked before the
fetcher is built, so a missing (or empty) `GITHUB_TOKEN` yields only the
error report; otherwise the PR search runs (network), and only a non-empty
result leads to description generation (network) and the read and the
conditional write of the target file inside `update_projects_file`. -/
def mainTrace (env : List (Str × Str)) (fetchedCount : Nat)
    (modifiedFlag : Bool) : List Action :=
  if !pyTruthy (envGet env githubTokenVar) then [Action.configError]
  else
    Action.network ::
      (if fetchedCount = 0 then []
       else Action.network :: Action.fileRead ::
         (if modifiedFlag then [Action.fileWrite] else []))

/-! ### Auxiliary notions used by the statements and proofs -/

/-- `content[:p] + x + content[p:]`, the single text-splice shape every
mutation of the merge performs. -/
def spliceAt (c : Str) (p : Nat) (x : Str) : Str := c.take p ++ x ++ c.drop p

/-- `pat` occurs in `c` starting at index `i`. -/
def occursAt (pat c : Str) (i : Nat) : Prop := pat <+: c.drop i

/-- The entry's text fields contain no newline (true of every entry the
surrounding script builds: repository names and URLs cannot contain
newlines, and the generated descriptions are single-line). -/
def nlFreeEntry (e : Entry) : Prop :=
  '\n' ∉ e.repo ∧ '\n' ∉ e.description ∧ '\n' ∉ e.pr_url

instance nlFreeEntryDecidable (e : Entry) : Decidable (nlFreeEntry e) :=
  inferInstanceAs (Decidable
    ('\n' ∉ e.repo ∧ '\n' ∉ e.description ∧ '\n' ∉ e.pr_url))

/-- `entryLine` without its final newline. -/
def entryBody (e : Entry) : Str :=
  "- **[".data ++ e.repo ++ "](https://github.com/".data ++ e.repo
    ++ ")** - ".data ++ e.description ++ " ([PRs](".data ++ e.pr_url ++ "))".data

/-- The subsequence of entries that survive the duplicate checks while the
merge appends lines of an existing section at boundary `P` of `c`:
`J` accumulates the already appended lines, and each entry is checked
against the buffer `c[:P] + J + c[P:]` exactly as the loop does. -/
def keptFrom (c : Str) (P : Nat) : List Entry → Str → List Entry
  | [], _ => []
  | e :: es, J =>
    if dupCheck e (spliceAt c P J) then keptFrom c P es J
    else e :: keptFrom c P es (J ++ entryLine e)

/-! ### Concrete documents and inputs used by counterexamples and
witnesses -/

def cDocC1 : Str := "## Notable Open-Source Contributions\nSee github.com/org/repo here.\n".data
def cEntC1 : Entry := ⟨"org/repo".data, "d".data, "u".data, 1⟩
def cInpC1 : List (Str × List Entry) := [("New".data, [cEntC1])]

def wStC1 : MergeState := ⟨"### S\nsee github.com/a/b here\n".data, false⟩
def wEntC1 : Entry := ⟨"a/b".data, "d".data, "u".data, 1⟩

def cDocC4 : Str := "### Cat\n- old\n".data
def cInpC4 : List (Str × List Entry) :=
  [("Cat".data, [⟨"a/b".data, "d".data, "u".data, 1⟩])]

def wDocC4 : Str := "plain text\n".data
def wInpC4 : List (Str × List Entry) :=
  [("X".data, [⟨"a/b".data, "d".data, "u".data, 1⟩])]

def wDocC5 : Str := "### C\n- **[a/b](https://github.com/a/b)** - d ([PRs](u))\n".data
def wInpC5 : List (Str × List Entry) :=
  [("C".data, [⟨"a/b".data, "d".data, "u".data, 1⟩])]

def wDocC6e : Str := "### C\n- old\n".data
def wEsC6 : List Entry :=
  [⟨"a/b".data, "d".data, "u".data, 1⟩, ⟨"a/c".data, "d2".data, "u2".data, 1⟩]

def wDocC7 : Str := "## Notable Open-Source Contributions\nX\n".data
def wEntC7 : Entry := ⟨"org/repo".data, "d".data, "u".data, 1⟩

def cDocC7 : Str := "## Notable Open-Source Contributions".data
def cEntC7 : Entry := ⟨"o/r".data, "d".data, "u".data, 1⟩

def wStC8a : MergeState := ⟨"### T\n\n## E\n".data, false⟩
def wEntC8a : Entry := ⟨"x/galaxy".data, "d".data, "u".data, 1⟩
def wStC8b : MergeState := ⟨"### T\n- **wombat** x\n\n## E\n".data, false⟩
def wEntC8b : Entry := ⟨"x/wombat".data, "d".data, "u".data, 1⟩

def wStC10 : MergeState := ⟨"### S\nsee github.com/org/repo-extra\n".data, false⟩
def wEntC10 : Entry := ⟨"org/repo".data, "d".data, "u".data, 1⟩

/-! ## Characterisation of `findSub` -/

theorem findAux_shift (sub : Str) :
    ∀ (s : Str) (i : Nat), findAux sub s i = (findAux sub s 0).map (· + i) := by
  intro s
  induction s with
  | nil => intro i; simp only [findAux]; split <;> simp
  | cons c t ih =>
    intro i
    simp only [findAux]
    split
    · simp
    · rw [ih (i + 1), ih 1]
      cases findAux sub t 0 with
      | none => simp
      | some j => simp; omega

theorem findAux_some_spec (sub : Str) :
    ∀ (s : Str) (j : Nat), findAux sub s 0 = some j →
      sub <+: s.drop j ∧ ∀ k, k < j → ¬ sub <+: s.drop k := by
  intro s
  induction s with
  | nil =>
    intro j h
    simp only [findAux] at h
    by_cases hp : sub.isPrefixOf ([] : Str) = true
    · rw [if_pos hp] at h
      injection h with h
      subst h
      exact ⟨by simpa using List.isPrefixOf_iff_prefix.1 hp,
        fun k hk => absurd hk (by omega)⟩
    · rw [if_neg hp] at h
      exact Option.noConfusion h
  | cons c t ih =>
    intro j h
    simp only [findAux] at h
    by_cases hp : sub.isPrefixOf (c :: t) = true
    · rw [if_pos hp] at h
      injection h with h
      subst h
      exact ⟨by simpa using List.isPrefixOf_iff_prefix.1 hp,
        fun k hk => absurd hk (by omega)⟩
    · rw [if_neg hp] at h
      rw [findAux_shift sub t 1] at h
      rcases hm : findAux sub t 0 with _ | j'
      · rw [hm] at h; exact Option.noConfusion h
      · rw [hm] at h
        simp only [Option.map_some'] at h
        injection h with h
        subst h
        obtain ⟨hocc, hmin⟩ := ih j' hm
        refine ⟨by simpa using hocc, ?_⟩
        intro k hk
        rcases k with _ | k
        · intro hcon
          exact hp (List.isPrefixOf_iff_prefix.2 (by simpa using hcon))
        · simpa using hmin k (by omega)

theorem findAux_none_spec (sub : Str) :
    ∀ (s : Str), findAux sub s 0 = none → ∀ k, ¬ sub <+: s.drop k := by
  intro s
  induction s with
  | nil =>
    intro h k
    simp only [findAux] at h
    by_cases hp : sub.isPrefixOf ([] : Str) = true
    · rw [if_pos hp] at h; exact Option.noConfusion h
    · rw [if_neg hp] at h
      intro hcon
      exact hp (List.isPrefixOf_iff_prefix.2 (by simpa using hcon))
  | cons c t ih =>
    intro h k
    simp only [findAux] at h
    by_cases hp : sub.isPrefixOf (c :: t) = true
    · rw [if_pos hp] at h; exact Option.noConfusion h
    · rw [if_neg hp] at h
      rw [findAux_shift sub t 1] at h
      rcases hm : findAux sub t 0 with _ | j'
      · rcases k with _ | k
        · intro hcon
          exact hp (List.isPrefixOf_iff_prefix.2 (by simpa using hcon))
        · simpa using ih hm k
      · rw [hm] at h; exact Option.noConfusion h

theorem findAux_zero_some_iff (sub s : Str) (j : Nat) :
    findAux sub s 0 = some j ↔
      (sub <+: s.drop j ∧ ∀ k, k < j → ¬ sub <+: s.drop k) := by
  constructor
  · exact findAux_some_spec sub s j
  · rintro ⟨hocc, hmin⟩
    rcases hm : findAux sub s 0 with _ | j'
    · exact absurd hocc (findAux_none_spec sub s hm j)
    · obtain ⟨hocc', hmin'⟩ := findAux_some_spec sub s j' hm
      have hj : j' = j := by
        rcases Nat.lt_trichotomy j' j with hlt | heq | hgt
        · exact absurd hocc' (hmin j' hlt)
        · exact heq
        · exact absurd hocc (hmin' j hgt)
      rw [hj]

theorem findAux_zero_none_iff (sub s : Str) :
    findAux sub s 0 = none ↔ ∀ k, ¬ sub <+: s.drop k := by
  constructor
  · exact findAux_none_spec sub s
  · intro hall
    rcases hm : findAux sub s 0 with _ | j'
    · rfl
    · obtain ⟨hocc', -⟩ := findAux_some_spec sub s j' hm
      exact absurd hocc' (hall j')

theorem findSub_some_iff (sub s : Str) (start j : Nat) :
    findSub sub s start = some j ↔
      start ≤ j ∧ occursAt sub s j ∧
        ∀ i, start ≤ i → i < j → ¬ occursAt sub s i := by
  unfold findSub occursAt
  constructor
  · intro h
    rcases hm : findAux sub (s.drop start) 0 with _ | j₀
    · rw [hm] at h; exact Option.noConfusion h
    · rw [hm] at h
      simp only [Option.map_some'] at h
      injection h with h
      subst h
      obtain ⟨hocc, hmin⟩ := findAux_some_spec sub (s.drop start) j₀ hm
      rw [List.drop_drop] at hocc
      refine ⟨by omega, by rwa [show start + j₀ = j₀ + start by omega] at hocc, ?_⟩
      intro i hsi hij
      have := hmin (i - start) (by omega)
      rw [List.drop_drop, show start + (i - start) = i by omega] at this
      exact this
  · rintro ⟨hsj, hocc, hmin⟩
    have hfa : findAux sub (s.drop start) 0 = some (j - start) := by
      refine (findAux_zero_some_iff sub (s.drop start) (j - start)).2 ⟨?_, ?_⟩
      · rw [List.drop_drop, show start + (j - start) = j by omega]
        exact hocc
      · intro k hk
        rw [List.drop_drop]
        exact hmin (start + k) (by omega) (by omega)
    rw [hfa]
    simp only [Option.map_some']
    congr 1
    omega

theorem findSub_none_iff (sub s : Str) (start : Nat) :
    findSub sub s start = none ↔ ∀ i, start ≤ i → ¬ occursAt sub s i := by
  unfold findSub occursAt
  rcases hm : findAux sub (s.drop start) 0 with _ | j₀
  · simp only [Option.map_none', true_iff]
    intro i hi
    have := findAux_none_spec sub (s.drop start) hm (i - start)
    rw [List.drop_drop, show start + (i - start) = i by omega] at this
    exact this
  · simp only [Option.map_some']
    constructor
    · intro h; exact Option.noConfusion h
    · intro hall
      obtain ⟨hocc, -⟩ := findAux_some_spec sub (s.drop start) j₀ hm
      rw [List.drop_drop] at hocc
      exact absurd hocc (hall (start + j₀) (by omega))

theorem hasSub_true_iff (sub s : Str) :
    hasSub sub s = true ↔ ∃ i, occursAt sub s i := by
  unfold hasSub
  rcases hm : findSub sub s 0 with _ | j
  · constructor
    · intro h
      exact absurd h (by simp)
    · rintro ⟨i, hi⟩
      exact absurd hi ((findSub_none_iff sub s 0).1 hm i (by omega))
  · constructor
    · intro h
      obtain ⟨-, hocc, -⟩ := (findSub_some_iff sub s 0 j).1 hm
      exact ⟨j, hocc⟩
    · intro h; rfl

theorem hasSub_of_findSub_some {sub s : Str} {j : Nat}
    (h : findSub sub s 0 = some j) : hasSub sub s = true := by
  unfold hasSub; rw [h]; rfl

theorem hasSub_prefix_trans {s₁ s₂ c : Str} (hp : s₁ <+: s₂)
    (h : hasSub s₂ c = true) : hasSub s₁ c = true := by
  rw [hasSub_true_iff] at h ⊢
  obtain ⟨i, hi⟩ := h
  exact ⟨i, hp.trans hi⟩

/-! ## Occurrences through text splices

`d` names the document text in this section (the name `c` would collide
with Mathlib's cycle notation in front of an index bracket). -/

theorem occursAt_iff_getElem (pat d : Str) (i : Nat) :
    occursAt pat d i ↔ ∀ k, k < pat.length → d[i + k]? = pat[k]? := by
  unfold occursAt
  constructor
  · rintro ⟨t, ht⟩
    intro k hk
    have h1 : d[i + k]? = (d.drop i)[k]? := by rw [List.getElem?_drop]
    rw [h1, ← ht, List.getElem?_append_left hk]
  · intro h
    rw [List.prefix_iff_eq_take]
    apply List.ext_getElem?
    intro n
    by_cases hn : n < pat.length
    · rw [List.getElem?_take_of_lt hn, List.getElem?_drop, h n hn]
    · rw [List.getElem?_eq_none (by omega),
        List.getElem?_eq_none (by rw [List.length_take]; omega)]

theorem occursAt_length_lt {pat d : Str} {i : Nat} (hne : pat ≠ [])
    (h : occursAt pat d i) : i < d.length := by
  rcases pat with _ | ⟨a, pt⟩
  · exact absurd rfl hne
  · have h0 := (occursAt_iff_getElem _ d i).1 h 0 (by simp)
    have h0' : d[i + 0]? = some a := by simpa using h0
    rcases List.getElem?_eq_some_iff.1 h0' with ⟨hlt, -⟩
    omega

theorem spliceAt_getElem_left {d x : Str} {p j : Nat} (hp : p ≤ d.length)
    (hj : j < p) : (spliceAt d p x)[j]? = d[j]? := by
  unfold spliceAt
  rw [List.append_assoc,
    List.getElem?_append_left (by rw [List.length_take]; omega),
    List.getElem?_take_of_lt hj]

theorem spliceAt_getElem_mid {d x : Str} {p j : Nat} (hp : p ≤ d.length)
    (h1 : p ≤ j) (h2 : j < p + x.length) :
    (spliceAt d p x)[j]? = x[j - p]? := by
  unfold spliceAt
  have hlt : (d.take p).length = p := by rw [List.length_take]; omega
  rw [List.append_assoc, List.getElem?_append_right (by omega), hlt,
    List.getElem?_append_left (by omega)]

theorem spliceAt_getElem_right {d x : Str} {p j : Nat} (hp : p ≤ d.length)
    (h : p + x.length ≤ j) : (spliceAt d p x)[j]? = d[j - x.length]? := by
  unfold spliceAt
  have hlt : (d.take p).length = p := by rw [List.length_take]; omega
  rw [List.append_assoc, List.getElem?_append_right (by omega), hlt,
    List.getElem?_append_right (by omega), List.getElem?_drop]
  have harith : p + (j - p - x.length) = j - x.length := by omega
  rw [harith]

theorem spliceAt_nil (d : Str) (p : Nat) : spliceAt d p [] = d := by
  unfold spliceAt
  rw [List.append_nil, List.take_append_drop]

theorem spliceAt_length (d x : Str) (p : Nat) (hp : p ≤ d.length) :
    (spliceAt d p x).length = d.length + x.length := by
  unfold spliceAt
  simp only [List.length_append, List.length_take, List.length_drop]
  omega

theorem spliceAt_spliceAt (d J x : Str) (P : Nat) (hp : P ≤ d.length) :
    spliceAt (spliceAt d P J) (P + J.length) x = spliceAt d P (J ++ x) := by
  unfold spliceAt
  have h1 : ((d.take P ++ J ++ d.drop P).take (P + J.length)) = d.take P ++ J := by
    rw [List.take_append_eq_append_take]
    have hl1 : (d.take P ++ J).length = P + J.length := by
      simp only [List.length_append, List.length_take]; omega
    rw [List.take_of_length_le (by omega), hl1,
      show P + J.length - (P + J.length) = 0 by omega, List.take_zero,
      List.append_nil]
  have h2 : ((d.take P ++ J ++ d.drop P).drop (P + J.length)) = d.drop P := by
    rw [List.drop_append_eq_append_drop]
    have hl1 : (d.take P ++ J).length = P + J.length := by
      simp only [List.length_append, List.length_take]; omega
    rw [List.drop_of_length_le (by omega), hl1,
      show P + J.length - (P + J.length) = 0 by omega, List.drop_zero,
      List.nil_append]
  rw [h1, h2]
  simp [List.append_assoc]

theorem occursAt_spliceAt_left {pat d x : Str} {p i : Nat} (hp : p ≤ d.length)
    (hle : i + pat.length ≤ p) (h : occursAt pat d i) :
    occursAt pat (spliceAt d p x) i := by
  rw [occursAt_iff_getElem] at h ⊢
  intro k hk
  rw [spliceAt_getElem_left hp (by omega)]
  exact h k hk

theorem occursAt_of_spliceAt_left {pat d x : Str} {p i : Nat} (hp : p ≤ d.length)
    (hle : i + pat.length ≤ p) (h : occursAt pat (spliceAt d p x) i) :
    occursAt pat d i := by
  rw [occursAt_iff_getElem] at h ⊢
  intro k hk
  rw [← spliceAt_getElem_left hp (show i + k < p by omega)]
  exact h k hk

theorem occursAt_spliceAt_right {pat d x : Str} {p i : Nat} (hp : p ≤ d.length)
    (hge : p ≤ i) (h : occursAt pat d i) :
    occursAt pat (spliceAt d p x) (i + x.length) := by
  rw [occursAt_iff_getElem] at h ⊢
  intro k hk
  rw [spliceAt_getElem_right hp (by omega),
    show i + x.length + k - x.length = i + k by omega]
  exact h k hk

/-- Splicing strictly after the end of the first occurrence of a pattern
keeps that first occurrence (the merge's later insertions never disturb an
already located section heading). -/
theorem findSub_zero_spliceAt (pat d x : Str) (s p : Nat) (hp : p ≤ d.length)
    (h : findSub pat d 0 = some s) (hsp : s + pat.length ≤ p) :
    findSub pat (spliceAt d p x) 0 = some s := by
  rw [findSub_some_iff] at h ⊢
  obtain ⟨-, hocc, hmin⟩ := h
  refine ⟨Nat.zero_le s, occursAt_spliceAt_left hp hsp hocc, ?_⟩
  intro i _ his hcon
  exact hmin i (Nat.zero_le i) his
    (occursAt_of_spliceAt_left hp (by omega) hcon)

/-- Splicing a block at the position of the first `"\n##"` boundary moves
that first boundary past the block, provided the block starts with `'-'`
and contains no `"\n##"` of its own (both true of a formatted entry
line). -/
theorem findSub_nextHeading_spliceAt (d ins : Str) (start q : Nat)
    (hq : findSub nextHeadingPat d start = some q)
    (hhead : ins.head? = some '-')
    (hni : ∀ i, ¬ occursAt nextHeadingPat ins i) :
    findSub nextHeadingPat (spliceAt d q ins) start = some (q + ins.length) := by
  have hpat0 : nextHeadingPat[0]? = some '\n' := by decide
  have hpat1 : nextHeadingPat[1]? = some '#' := by decide
  have hpat2 : nextHeadingPat[2]? = some '#' := by decide
  have hlen3 : nextHeadingPat.length = 3 := by decide
  rw [findSub_some_iff] at hq
  obtain ⟨hsq, hocc, hmin⟩ := hq
  have hoccg := (occursAt_iff_getElem _ _ _).1 hocc
  have hdq : d[q]? = some '\n' := by
    have h0 := hoccg 0 (by omega)
    rwa [Nat.add_zero, hpat0] at h0
  have hqlt : q < d.length := occursAt_length_lt (by decide) hocc
  have hp : q ≤ d.length := by omega
  have hins0 : ins[0]? = some '-' := by
    rw [← List.head?_eq_getElem?]
    exact hhead
  have hinslen : 1 ≤ ins.length := by
    cases ins with
    | nil => exact Option.noConfusion hhead
    | cons a t => simp
  rw [findSub_some_iff]
  refine ⟨by omega, ?_, ?_⟩
  · rw [occursAt_iff_getElem]
    intro k hk
    rw [spliceAt_getElem_right hp (by omega),
      show q + ins.length + k - ins.length = q + k by omega]
    exact hoccg k hk
  · intro i hstart hi hcon
    have hcong := (occursAt_iff_getElem _ _ _).1 hcon
    rcases Nat.lt_or_ge (i + 2) q with hA | hAB
    · have hoc : occursAt nextHeadingPat d i := by
        rw [occursAt_iff_getElem]
        intro k hk
        rw [← spliceAt_getElem_left hp (show i + k < q by omega)]
        exact hcong k hk
      exact hmin i hstart (by omega) hoc
    · rcases Nat.lt_or_ge i q with hB | hCD
      · have hk0 : q - i = 1 ∨ q - i = 2 := by omega
        have he := hcong (q - i) (by omega)
        rw [show i + (q - i) = q by omega,
          spliceAt_getElem_mid hp (by omega) (by omega),
          show q - q = 0 by omega, hins0] at he
        rcases hk0 with hk0 | hk0 <;> rw [hk0] at he
        · rw [hpat1] at he
          exact absurd he (by decide)
        · rw [hpat2] at he
          exact absurd he (by decide)
      · rcases Nat.lt_or_ge (i + 2) (q + ins.length) with hC | hD
        · have hoc : occursAt nextHeadingPat ins (i - q) := by
            rw [occursAt_iff_getElem]
            intro k hk
            have he := hcong k (by omega)
            rw [spliceAt_getElem_mid hp (by omega) (by omega)] at he
            rwa [show i + k - q = i - q + k by omega] at he
          exact hni (i - q) hoc
        · have hk1 : q + ins.length - i = 1 ∨ q + ins.length - i = 2 := by omega
          have he := hcong (q + ins.length - i) (by omega)
          rw [show i + (q + ins.length - i) = q + ins.length by omega,
            spliceAt_getElem_right hp (by omega),
            show q + ins.length - ins.length = q by omega, hdq] at he
          rcases hk1 with hk1 | hk1 <;> rw [hk1] at he
          · rw [hpat1] at he
            exact absurd he (by decide)
          · rw [hpat2] at he
            exact absurd he (by decide)

/-- Appending a block at the end of the text creates no `"\n##"` boundary
when none existed, provided the block starts with `'-'` and contains no
`"\n##"` of its own (both true of a formatted entry line). -/
theorem findSub_nextHeading_append_none (d ins : Str) (start : Nat)
    (hq : findSub nextHeadingPat d start = none)
    (hhead : ins.head? = some '-')
    (hni : ∀ i, ¬ occursAt nextHeadingPat ins i) :
    findSub nextHeadingPat (spliceAt d d.length ins) start = none := by
  have hlen3 : nextHeadingPat.length = 3 := by decide
  have hins0 : ins[0]? = some '-' := by
    rw [← List.head?_eq_getElem?]
    exact hhead
  have hinslen : 1 ≤ ins.length := by
    cases ins with
    | nil => exact Option.noConfusion hhead
    | cons a t => simp
  have hp : d.length ≤ d.length := le_refl _
  rw [findSub_none_iff] at hq ⊢
  intro i hstart hcon
  have hcong := (occursAt_iff_getElem _ _ _).1 hcon
  rcases Nat.lt_or_ge (i + 2) d.length with hA | hAB
  · refine hq i hstart ?_
    rw [occursAt_iff_getElem]
    intro k hk
    rw [← spliceAt_getElem_left hp (show i + k < d.length by omega)]
    exact hcong k hk
  · rcases Nat.lt_or_ge i d.length with hB | hCD
    · have he := hcong (d.length - i) (by omega)
      rw [show i + (d.length - i) = d.length by omega,
        spliceAt_getElem_mid hp (by omega) (by omega),
        show d.length - d.length = 0 by omega, hins0] at he
      have hk0 : d.length - i = 1 ∨ d.length - i = 2 := by omega
      rcases hk0 with hk0 | hk0 <;> rw [hk0] at he
      · rw [show (nextHeadingPat[1]? : Option Char) = some '#' from by decide] at he
        exact absurd he (by decide)
      · rw [show (nextHeadingPat[2]? : Option Char) = some '#' from by decide] at he
        exact absurd he (by decide)
    · rcases Nat.lt_or_ge (i + 2) (d.length + ins.length) with hC | hD
      · refine hni (i - d.length) ?_
        rw [occursAt_iff_getElem]
        intro k hk
        have he := hcong k (by omega)
        rw [spliceAt_getElem_mid hp (by omega) (by omega)] at he
        rwa [show i + k - d.length = i - d.length + k by omega] at he
      · have he := hcong (d.length + ins.length - i) (by omega)
        rw [spliceAt_getElem_right hp (by omega)] at he
        rw [List.getElem?_eq_none
          (show d.length ≤ i + (d.length + ins.length - i) - ins.length
            by omega)] at he
        have hnone := List.getElem?_eq_none_iff.1 he.symm
        omega

/-! ## Facts about formatted entry lines -/

theorem entryLine_eq_body (e : Entry) : entryLine e = entryBody e ++ ['\n'] := by
  unfold entryLine entryBody
  rw [show ("\n".data : Str) = ['\n'] from rfl]

theorem entryLine_head (e : Entry) : (entryLine e).head? = some '-' := rfl

theorem nl_not_mem_entryBody (e : Entry) (h : nlFreeEntry e) :
    '\n' ∉ entryBody e := by
  obtain ⟨h1, h2, h3⟩ := h
  unfold entryBody
  intro hmem
  rcases List.mem_append.1 hmem with hmem | hm
  · rcases List.mem_append.1 hmem with hmem | hm
    · rcases List.mem_append.1 hmem with hmem | hm
      · rcases List.mem_append.1 hmem with hmem | hm
        · rcases List.mem_append.1 hmem with hmem | hm
          · rcases List.mem_append.1 hmem with hmem | hm
            · rcases List.mem_append.1 hmem with hmem | hm
              · rcases List.mem_append.1 hmem with hm | hm
                · exact absurd hm (by decide)
                · exact h1 hm
              · exact absurd hm (by decide)
            · exact h1 hm
          · exact absurd hm (by decide)
        · exact h2 hm
      · exact absurd hm (by decide)
    · exact h3 hm
  · exact absurd hm (by decide)

theorem entryLine_no_next (e : Entry) (h : nlFreeEntry e) (i : Nat) :
    ¬ occursAt nextHeadingPat (entryLine e) i := by
  intro hcon
  have hb := nl_not_mem_entryBody e h
  have hcong := (occursAt_iff_getElem _ _ _).1 hcon
  have hlen3 : nextHeadingPat.length = 3 := by decide
  have h0 := hcong 0 (by omega)
  have h1 := hcong 1 (by omega)
  rw [show (nextHeadingPat[0]? : Option Char) = some '\n' from by decide] at h0
  rw [show (nextHeadingPat[1]? : Option Char) = some '#' from by decide] at h1
  rw [entryLine_eq_body] at h0 h1
  rw [Nat.add_zero] at h0
  rcases Nat.lt_trichotomy i (entryBody e).length with hlt | heq | hgt
  · rw [List.getElem?_append_left hlt] at h0
    exact hb (List.getElem?_mem h0)
  · have hnone : ((entryBody e) ++ ['\n'])[i + 1]? = none := by
      apply List.getElem?_eq_none
      simp only [List.length_append, List.length_cons, List.length_nil]
      omega
    rw [hnone] at h1
    exact Option.noConfusion h1
  · have hnone : ((entryBody e) ++ ['\n'])[i]? = none := by
      apply List.getElem?_eq_none
      simp only [List.length_append, List.length_cons, List.length_nil]
      omega
    rw [hnone] at h0
    exact Option.noConfusion h0

theorem sectionPattern_no_nl {cat : Str} (h : '\n' ∉ cat) :
    '\n' ∉ sectionPattern cat := by
  unfold sectionPattern
  intro hmem
  rcases List.mem_append.1 hmem with hm | hm
  · exact absurd hm (by decide)
  · exact h hm

/-! ## Behaviour of the per-entry loop -/

theorem processEntry_of_dup {cat : Str} {st : MergeState} {e : Entry}
    (h : dupCheck e st.content = true) : processEntry cat st e = st := by
  unfold processEntry
  split
  · rfl
  · split
    · rfl
    · rename_i hu
      split
      · rfl
      · rename_i hf
        exfalso
        unfold dupCheck at h
        rcases Bool.or_eq_true_iff.1 h with h' | h'
        · exact hu h'
        · exact hf h'

theorem processEntry_not_dup {cat : Str} {st : MergeState} {e : Entry} {s : Nat}
    (hs : findSub (sectionPattern cat) st.content 0 = some s)
    (h : dupCheck e st.content = false) :
    processEntry cat st e
      = ⟨spliceAt st.content (entryInsertPos st.content s) (entryLine e),
         true⟩ := by
  unfold processEntry
  split
  · rename_i hfind
    rw [hs] at hfind
    exact Option.noConfusion hfind
  · rename_i s' hfind
    rw [hs] at hfind
    injection hfind with he
    subst he
    split
    · rename_i hu
      exfalso
      unfold dupCheck at h
      rw [hu] at h
      simp at h
    · split
      · rename_i hf
        exfalso
        unfold dupCheck at h
        rw [hf] at h
        simp at h
      · rfl

theorem keptFrom_sublist (c : Str) (P : Nat) :
    ∀ (es : List Entry) (J : Str), List.Sublist (keptFrom c P es J) es := by
  intro es
  induction es with
  | nil =>
    intro J
    simp [keptFrom]
  | cons e es ih =>
    intro J
    simp only [keptFrom]
    split
    · exact (ih J).cons e
    · exact (ih (J ++ entryLine e)).cons₂ e

/-- The entry loop for an existing section, run from a buffer `c` with a
block `J` already spliced in at its boundary `P`, appends exactly the
formatted lines of `keptFrom d P es J` at the boundary and sets `modified`
when anything was appended. -/
theorem entries_fold_spec (cat : Str) (d : Str) (s P : Nat)
    (hs0 : findSub (sectionPattern cat) d 0 = some s)
    (hP0 : findSub nextHeadingPat d (s + 1) = some P)
    (hcat : '\n' ∉ cat) :
    ∀ (es : List Entry) (J : Str) (b : Bool),
      (∀ e ∈ es, nlFreeEntry e) →
      findSub (sectionPattern cat) (spliceAt d P J) 0 = some s →
      findSub nextHeadingPat (spliceAt d P J) (s + 1) = some (P + J.length) →
      es.foldl (processEntry cat) ⟨spliceAt d P J, b⟩
        = ⟨spliceAt d P (J ++ ((keptFrom d P es J).map entryLine).flatten),
           b || !(keptFrom d P es J).isEmpty⟩ := by
  have hsect_occ : occursAt (sectionPattern cat) d s :=
    ((findSub_some_iff _ _ _ _).1 hs0).2.1
  have hnext_occ : occursAt nextHeadingPat d P :=
    ((findSub_some_iff _ _ _ _).1 hP0).2.1
  have hsP : s + 1 ≤ P := ((findSub_some_iff _ _ _ _).1 hP0).1
  have hPc : P < d.length := occursAt_length_lt (by decide) hnext_occ
  have hcP : d[P]? = some '\n' := by
    have h0 := (occursAt_iff_getElem _ _ _).1 hnext_occ 0 (by decide)
    rwa [Nat.add_zero, show (nextHeadingPat[0]? : Option Char) = some '\n'
      from by decide] at h0
  have hsecend : s + (sectionPattern cat).length ≤ P := by
    by_contra hcon
    push_neg at hcon
    have hk : P - s < (sectionPattern cat).length := by omega
    have hchar := (occursAt_iff_getElem _ _ _).1 hsect_occ (P - s) hk
    rw [show s + (P - s) = P by omega, hcP] at hchar
    exact sectionPattern_no_nl hcat (List.getElem?_mem hchar.symm)
  intro es
  induction es with
  | nil =>
    intro J b hclean hinv1 hinv2
    simp [keptFrom]
  | cons e es ih =>
    intro J b hclean hinv1 hinv2
    have hce : nlFreeEntry e := hclean e (by simp)
    have hces : ∀ x ∈ es, nlFreeEntry x := fun x hx => hclean x (by simp [hx])
    rw [List.foldl_cons]
    by_cases hd : dupCheck e (spliceAt d P J) = true
    · rw [processEntry_of_dup hd]
      rw [ih J b hces hinv1 hinv2]
      simp only [keptFrom]
      rw [if_pos hd]
    · have hd' : dupCheck e (spliceAt d P J) = false := by
        cases hval : dupCheck e (spliceAt d P J)
        · rfl
        · exact absurd hval hd
      have hip : entryInsertPos (spliceAt d P J) s = P + J.length := by
        unfold entryInsertPos
        rw [hinv2]
      rw [processEntry_not_dup hinv1 hd', hip,
        spliceAt_spliceAt d J (entryLine e) P (by omega)]
      have hinv1' : findSub (sectionPattern cat)
          (spliceAt d P (J ++ entryLine e)) 0 = some s := by
        rw [← spliceAt_spliceAt d J (entryLine e) P (by omega)]
        exact findSub_zero_spliceAt _ _ _ _ _
          (by rw [spliceAt_length d J P (by omega)]; omega) hinv1 (by omega)
      have hinv2' : findSub nextHeadingPat
          (spliceAt d P (J ++ entryLine e)) (s + 1)
          = some (P + (J ++ entryLine e).length) := by
        rw [← spliceAt_spliceAt d J (entryLine e) P (by omega)]
        have hstep := findSub_nextHeading_spliceAt (spliceAt d P J)
          (entryLine e) (s + 1) (P + J.length) hinv2 (entryLine_head e)
          (entryLine_no_next e hce)
        rw [hstep, List.length_append]
        congr 1
        omega
      rw [ih (J ++ entryLine e) true hces hinv1' hinv2']
      simp only [keptFrom]
      rw [if_neg (by simp [hd'])]
      simp [List.append_assoc]

theorem sectionPattern_length (cat : Str) :
    (sectionPattern cat).length = 4 + cat.length := by
  unfold sectionPattern
  rw [List.length_append, show ("### ".data : Str).length = 4 from rfl]

/-- The entry loop for an existing section that is bounded by the end of
the document (`next_section == -1` in the source): every surviving entry's
formatted line is appended at the end of the buffer. -/
theorem entries_fold_spec_eof (cat : Str) (d : Str) (s : Nat)
    (hs0 : findSub (sectionPattern cat) d 0 = some s) :
    ∀ (es : List Entry) (J : Str) (b : Bool),
      (∀ e ∈ es, nlFreeEntry e) →
      findSub (sectionPattern cat) (spliceAt d d.length J) 0 = some s →
      findSub nextHeadingPat (spliceAt d d.length J) (s + 1) = none →
      es.foldl (processEntry cat) ⟨spliceAt d d.length J, b⟩
        = ⟨spliceAt d d.length
             (J ++ ((keptFrom d d.length es J).map entryLine).flatten),
           b || !(keptFrom d d.length es J).isEmpty⟩ := by
  have hsect_occ : occursAt (sectionPattern cat) d s :=
    ((findSub_some_iff _ _ _ _).1 hs0).2.1
  have hseclen : s + (sectionPattern cat).length ≤ d.length := by
    obtain ⟨t, ht⟩ := hsect_occ
    have hlen : (sectionPattern cat).length + t.length = (d.drop s).length := by
      rw [← ht, List.length_append]
    rw [List.length_drop] at hlen
    have h4 := sectionPattern_length cat
    omega
  intro es
  induction es with
  | nil =>
    intro J b hclean hinv1 hinv2
    simp [keptFrom]
  | cons e es ih =>
    intro J b hclean hinv1 hinv2
    have hce : nlFreeEntry e := hclean e (by simp)
    have hces : ∀ x ∈ es, nlFreeEntry x := fun x hx => hclean x (by simp [hx])
    rw [List.foldl_cons]
    by_cases hd : dupCheck e (spliceAt d d.length J) = true
    · rw [processEntry_of_dup hd]
      rw [ih J b hces hinv1 hinv2]
      simp only [keptFrom]
      rw [if_pos hd]
    · have hd' : dupCheck e (spliceAt d d.length J) = false := by
        cases hval : dupCheck e (spliceAt d d.length J)
        · rfl
        · exact absurd hval hd
      have hClen : (spliceAt d d.length J).length = d.length + J.length :=
        spliceAt_length d J d.length (le_refl _)
      have hip : entryInsertPos (spliceAt d d.length J) s
          = d.length + J.length := by
        unfold entryInsertPos
        rw [hinv2]
        exact hClen
      rw [processEntry_not_dup hinv1 hd', hip,
        spliceAt_spliceAt d J (entryLine e) d.length (le_refl _)]
      have hinv1' : findSub (sectionPattern cat)
          (spliceAt d d.length (J ++ entryLine e)) 0 = some s := by
        rw [← spliceAt_spliceAt d J (entryLine e) d.length (le_refl _)]
        exact findSub_zero_spliceAt _ _ _ _ _ (by omega) hinv1 (by omega)
      have hinv2' : findSub nextHeadingPat
          (spliceAt d d.length (J ++ entryLine e)) (s + 1) = none := by
        rw [← spliceAt_spliceAt d J (entryLine e) d.length (le_refl _)]
        have hap := findSub_nextHeading_append_none (spliceAt d d.length J)
          (entryLine e) (s + 1) hinv2 (entryLine_head e)
          (entryLine_no_next e hce)
        rwa [hClen] at hap
      rw [ih (J ++ entryLine e) true hces hinv1' hinv2']
      simp only [keptFrom]
      rw [if_neg (by simp [hd'])]
      simp [List.append_assoc]

/-! ## No-op runs -/

theorem pruneRecentSection_no_marker {d : Str}
    (h : findSub recentMarker d 0 = none) : pruneRecentSection d = d := by
  unfold pruneRecentSection
  rw [h]

theorem entries_all_dup_noop (cat : Str) (st : MergeState) :
    ∀ es : List Entry, (∀ e ∈ es, dupCheck e st.content = true) →
      es.foldl (processEntry cat) st = st := by
  intro es
  induction es with
  | nil => intro h; rfl
  | cons e es ih =>
    intro h
    rw [List.foldl_cons, processEntry_of_dup (h e (by simp))]
    exact ih (fun x hx => h x (by simp [hx]))

theorem processCategory_noop_dup (st : MergeState) (cat : Str) (es : List Entry)
    (hsec : hasSub (sectionPattern cat) st.content = true)
    (h : ∀ e ∈ es, dupCheck e st.content = true) :
    processCategory st cat es = st := by
  unfold processCategory
  rw [if_pos hsec]
  exact entries_all_dup_noop cat st es h

theorem processCategory_noop_nosection (st : MergeState) (cat : Str)
    (es : List Entry)
    (h1 : hasSub (sectionPattern cat) st.content = false)
    (h2 : hasSub notableSection st.content = false) :
    processCategory st cat es = st := by
  unfold processCategory
  rw [if_neg (by simp [h1]), if_neg (by simp [h2])]

theorem categories_fold_noop (c : Str) (b : Bool) :
    ∀ (input : List (Str × List Entry)),
      (∀ p ∈ input,
        (hasSub (sectionPattern p.1) c = true ∧ ∀ e ∈ p.2, dupCheck e c = true)
        ∨ (hasSub (sectionPattern p.1) c = false
            ∧ hasSub notableSection c = false)) →
      input.foldl (fun acc p => processCategory acc p.1 p.2) ⟨c, b⟩ = ⟨c, b⟩ := by
  intro input
  induction input with
  | nil => intro h; rfl
  | cons p ps ih =>
    intro h
    rw [List.foldl_cons]
    have hstep : processCategory ⟨c, b⟩ p.1 p.2 = ⟨c, b⟩ := by
      rcases h p (by simp) with ⟨hsec, hdup⟩ | ⟨hns, hna⟩
      · exact processCategory_noop_dup _ _ _ hsec hdup
      · exact processCategory_noop_nosection _ _ _ hns hna
    rw [hstep]
    exact ih (fun q hq => h q (by simp [hq]))

/-- The new-category branch: no section heading, anchor present; the whole
block of formatted lines is inserted right after the anchor heading's line,
with no duplicate checking of the entries. -/
theorem processCategory_creates {st : MergeState} {cat : Str} {es : List Entry}
    {a nl : Nat}
    (hns : hasSub (sectionPattern cat) st.content = false)
    (ha : findSub notableSection st.content 0 = some a)
    (hnl : findSub newlineStr st.content (a + notableSection.length) = some nl) :
    processCategory st cat es
      = ⟨st.content.take (nl + 1)
          ++ ("\n".data ++ sectionPattern cat ++ "\n".data
               ++ (es.map entryLine).flatten)
          ++ st.content.drop (nl + 1), true⟩ := by
  unfold processCategory
  rw [if_neg (by simp [hns]), if_pos (hasSub_of_findSub_some ha)]
  split
  · rename_i hnone
    rw [ha] at hnone
    exact Option.noConfusion hnone
  · rename_i np hsome
    rw [ha] at hsome
    injection hsome with hval
    subst hval
    rw [hnl]

/-! ## The claims -/

/-- C1, counterexample: an entry whose reference substring
`github.com/org/repo` is already present in the document is nevertheless
added when its category's section heading does not exist yet — the
new-section branch performs no duplicate check at all. -/
theorem dup_added_when_section_created :
    hasSub (urlStr cEntC1.repo) cDocC1 = true
    ∧ hasSub (sectionPattern ("New".data)) cDocC1 = false
    ∧ hasSub (entryLine cEntC1) (update_projects_file cInpC1 cDocC1).content = true
    ∧ (update_projects_file cInpC1 cDocC1).modified = true := by decide

/-- C1, amended: when the category's section already exists, the per-entry
loop never adds an entry whose reference substring `github.com/<identifier>`
is already present anywhere in the buffer — the entry is skipped and the
state is returned unchanged.  (When the section is missing, the
new-section branch adds all entries without any duplicate check.) -/
theorem url_dup_never_added (category : Str) (st : MergeState) (e : Entry)
    (h : hasSub (urlStr e.repo) st.content = true) :
    processEntry category st e = st := by
  unfold processEntry
  split
  · rfl
  · rw [if_pos h]

/-- C1, witness for the amended theorem. -/
theorem url_dup_never_added_witness :
    processEntry ("S".data) wStC1 wEntC1 = wStC1 :=
  url_dup_never_added ("S".data) wStC1 wEntC1 (by decide)

/-- C4, counterexample: a document without the anchor heading is not left
unchanged when the entry's category section happens to exist — the entry
loop runs, appends the entry and writes the file. -/
theorem no_anchor_still_modified :
    hasSub notableSection cDocC4 = false
    ∧ (update_projects_file cInpC4 cDocC4).modified = true
    ∧ (update_projects_file cInpC4 cDocC4).content ≠ cDocC4 := by decide

/-- C4, amended: if the (pruned) document contains neither the anchor
heading nor any input category's `### <category>` heading, then no branch
of the merge fires: the buffer stays the pruned document, `modified` stays
false, and the file is not written. -/
theorem no_anchor_without_sections_unwritten
    (input : List (Str × List Entry)) (file : Str)
    (h1 : hasSub notableSection (pruneRecentSection file) = false)
    (h2 : ∀ p ∈ input,
      hasSub (sectionPattern p.1) (pruneRecentSection file) = false) :
    update_projects_file input file = ⟨pruneRecentSection file, false⟩
    ∧ update_projects_file_write input file = file := by
  have hrun : update_projects_file input file
      = ⟨pruneRecentSection file, false⟩ := by
    unfold update_projects_file
    apply categories_fold_noop
    intro p hp
    right
    exact ⟨h2 p hp, h1⟩
  refine ⟨hrun, ?_⟩
  unfold update_projects_file_write
  by_cases hemp : input.isEmpty = true
  · rw [if_pos hemp]
  · rw [if_neg hemp, hrun]
    simp

/-- C4, witness for the amended theorem. -/
theorem no_anchor_without_sections_unwritten_witness :
    update_projects_file wInpC4 wDocC4 = ⟨pruneRecentSection wDocC4, false⟩
    ∧ update_projects_file_write wInpC4 wDocC4 = wDocC4 :=
  no_anchor_without_sections_unwritten wInpC4 wDocC4 (by decide) (by decide)

/-- C5: the buffer is written back only when the `modified` flag was set;
in particular, when every category's section exists and every entry is
recognised as a duplicate against the pruned document, the buffer never
changes, the flag stays false and the file on disk is untouched (the write
itself happens at most once, at the very end, by construction of
`update_projects_file_write`). -/
theorem write_only_when_modified (input : List (Str × List Entry)) (file : Str)
    (h : ∀ p ∈ input,
      hasSub (sectionPattern p.1) (pruneRecentSection file) = true
      ∧ ∀ e ∈ p.2, dupCheck e (pruneRecentSection file) = true) :
    (update_projects_file input file).modified = false
    ∧ (update_projects_file input file).content = pruneRecentSection file
    ∧ update_projects_file_write input file = file := by
  have hrun : update_projects_file input file
      = ⟨pruneRecentSection file, false⟩ := by
    unfold update_projects_file
    apply categories_fold_noop
    intro p hp
    left
    exact h p hp
  refine ⟨by rw [hrun], by rw [hrun], ?_⟩
  unfold update_projects_file_write
  by_cases hemp : input.isEmpty = true
  · rw [if_pos hemp]
  · rw [if_neg hemp, hrun]
    simp

/-- C5, witness. -/
theorem write_only_when_modified_witness :
    (update_projects_file wInpC5 wDocC5).modified = false
    ∧ (update_projects_file wInpC5 wDocC5).content = pruneRecentSection wDocC5
    ∧ update_projects_file_write wInpC5 wDocC5 = wDocC5 :=
  write_only_when_modified wInpC5 wDocC5 (by decide)

/-- C6: merging entries into a category whose section exists splices
exactly the formatted lines of the surviving (non-duplicate) entries, in
input order, at the section's end boundary `entryInsertPos d s` — the
first `"\n##"` after the heading, or the end of the document when no later
heading exists (`next_section == -1` in the source).  The text before and
after the boundary is preserved character-for-character, and the appended
lines form a subsequence of the input entries as filtered by the duplicate
checks. -/
theorem append_into_existing_section (category d : Str) (b : Bool)
    (es : List Entry) (s : Nat)
    (hs : findSub (sectionPattern category) d 0 = some s)
    (hcat : '\n' ∉ category)
    (hes : ∀ e ∈ es, nlFreeEntry e) :
    processCategory ⟨d, b⟩ category es
      = ⟨d.take (entryInsertPos d s)
           ++ ((keptFrom d (entryInsertPos d s) es []).map entryLine).flatten
           ++ d.drop (entryInsertPos d s),
         b || !(keptFrom d (entryInsertPos d s) es []).isEmpty⟩
    ∧ List.Sublist (keptFrom d (entryInsertPos d s) es []) es := by
  refine ⟨?_, keptFrom_sublist d (entryInsertPos d s) es []⟩
  unfold processCategory
  rw [if_pos (hasSub_of_findSub_some hs)]
  rcases hnext : findSub nextHeadingPat d (s + 1) with _ | P
  · have hip : entryInsertPos d s = d.length := by
      unfold entryInsertPos
      rw [hnext]
    rw [hip]
    have hbase1 : findSub (sectionPattern category) (spliceAt d d.length []) 0
        = some s := by
      rw [spliceAt_nil]
      exact hs
    have hbase2 : findSub nextHeadingPat (spliceAt d d.length []) (s + 1)
        = none := by
      rw [spliceAt_nil]
      exact hnext
    have hfold := entries_fold_spec_eof category d s hs es [] b hes
      hbase1 hbase2
    rw [spliceAt_nil] at hfold
    rw [hfold]
    unfold spliceAt
    simp
  · have hip : entryInsertPos d s = P := by
      unfold entryInsertPos
      rw [hnext]
    rw [hip]
    have hbase1 : findSub (sectionPattern category) (spliceAt d P []) 0
        = some s := by
      rw [spliceAt_nil]
      exact hs
    have hbase2 : findSub nextHeadingPat (spliceAt d P []) (s + 1)
        = some (P + ([] : Str).length) := by
      rw [spliceAt_nil]
      simpa using hnext
    have hfold := entries_fold_spec category d s P hs hnext hcat es [] b hes
      hbase1 hbase2
    rw [spliceAt_nil] at hfold
    rw [hfold]
    unfold spliceAt
    simp

/-- C6, witness: the section is the last one in the document (no later
`"\n##"` heading), so the surviving lines are appended at the end of the
buffer. -/
theorem append_into_existing_section_witness :
    processCategory ⟨wDocC6e, false⟩ ("C".data) wEsC6
      = ⟨wDocC6e.take (entryInsertPos wDocC6e 0)
           ++ ((keptFrom wDocC6e (entryInsertPos wDocC6e 0) wEsC6 []).map
                entryLine).flatten
           ++ wDocC6e.drop (entryInsertPos wDocC6e 0),
         false || !(keptFrom wDocC6e (entryInsertPos wDocC6e 0) wEsC6 []).isEmpty⟩
    ∧ List.Sublist (keptFrom wDocC6e (entryInsertPos wDocC6e 0) wEsC6 []) wEsC6 :=
  append_into_existing_section ("C".data) wDocC6e false wEsC6 0
    (by decide) (by decide) (by decide)

/-- C7, counterexample: on a document that is exactly the anchor heading
with no newline after it, `content.find("\n", insert_pos)` fails and the
source's `+ 1` turns the `-1` into position `0`: the new sub-heading and
bullet line are prepended before the anchor heading's line, not inserted
after it. -/
theorem new_category_misplaced_without_newline :
    hasSub notableSection cDocC7 = true
    ∧ findSub newlineStr cDocC7 (0 + notableSection.length) = none
    ∧ (update_projects_file [(("N".data : Str), [cEntC7])] cDocC7).content
      = "\n### N\n".data ++ entryLine cEntC7 ++ cDocC7 := by decide

/-- C7, amended: on a document that contains the anchor heading with a
newline ending the anchor's line and no section heading for the category,
merging one category with one entry splices, at the position right after
the anchor heading's line, the block consisting of a blank line, the new
`### <Category>` sub-heading and exactly one formatted bullet line
`- **[identifier](https://github.com/identifier)** - description
([PRs](pr_url))`, leaving the rest of the text unchanged. -/
theorem new_category_created (category d : Str) (e : Entry) (a nl : Nat)
    (hm : findSub recentMarker d 0 = none)
    (hns : hasSub (sectionPattern category) d = false)
    (ha : findSub notableSection d 0 = some a)
    (hnl : findSub newlineStr d (a + notableSection.length) = some nl) :
    update_projects_file [(category, [e])] d
      = ⟨d.take (nl + 1)
           ++ ("\n".data ++ sectionPattern category ++ "\n".data ++ entryLine e)
           ++ d.drop (nl + 1), true⟩ := by
  unfold update_projects_file
  rw [List.foldl_cons, List.foldl_nil, pruneRecentSection_no_marker hm]
  rw [@processCategory_creates ⟨d, false⟩ category [e] a nl hns ha hnl]
  simp

/-- C7, witness. -/
theorem new_category_created_witness :
    update_projects_file [(("N".data : Str), [wEntC7])] wDocC7
      = ⟨wDocC7.take 37
           ++ ("\n".data ++ sectionPattern ("N".data) ++ "\n".data
                ++ entryLine wEntC7)
           ++ wDocC7.drop 37, true⟩ :=
  new_category_created ("N".data) wDocC7 wEntC7 0 36
    (by decide) (by decide) (by decide) (by decide)

/-- C8: for an entry whose short name is on the stoplist the fuzzy check is
skipped entirely — if the exact reference check also fails, the entry is
appended (so a stoplisted entry can only be recognised as a duplicate via
the exact check); for an entry not on the stoplist, a successful
case-insensitive emphasized-pattern search for its short name makes the
loop skip the entry, returning the state unchanged. -/
theorem stoplist_guard_and_fuzzy_skip (category : Str) (st : MergeState)
    (e : Entry) (s : Nat)
    (hs : findSub (sectionPattern category) st.content 0 = some s) :
    (stoplist.contains (shortName e.repo) = true →
      hasSub (urlStr e.repo) st.content = false →
      processEntry category st e
        = ⟨spliceAt st.content (entryInsertPos st.content s) (entryLine e),
           true⟩)
    ∧ (stoplist.contains (shortName e.repo) = false →
      fuzzySearch (shortName e.repo) st.content = true →
      processEntry category st e = st) := by
  constructor
  · intro hstop hurl
    apply processEntry_not_dup hs
    unfold dupCheck
    rw [hstop, hurl]
    rfl
  · intro hstop hfuzz
    apply processEntry_of_dup
    unfold dupCheck
    rw [hstop, hfuzz]
    simp

/-- C8, witness: the stoplisted entry `x/galaxy` is appended despite the
bold text in the buffer, and the non-stoplisted `x/wombat` is skipped by
the fuzzy match on `**wombat**`. -/
theorem stoplist_guard_and_fuzzy_skip_witness :
    processEntry ("T".data) wStC8a wEntC8a
      = ⟨spliceAt wStC8a.content (entryInsertPos wStC8a.content 0)
           (entryLine wEntC8a), true⟩
    ∧ processEntry ("T".data) wStC8b wEntC8b = wStC8b :=
  ⟨(stoplist_guard_and_fuzzy_skip ("T".data) wStC8a wEntC8a 0
      (by decide)).1 (by decide) (by decide),
   (stoplist_guard_and_fuzzy_skip ("T".data) wStC8b wEntC8b 0
      (by decide)).2 (by decide) (by decide)⟩

/-- C9: when the `GITHUB_TOKEN` environment variable is absent, `main`
reports the configuration error and terminates: its action trace is
exactly the error report, with no network access and no read or write of
the target file. -/
theorem missing_token_reports_and_stops (env : List (Str × Str))
    (fetchedCount : Nat) (modifiedFlag : Bool)
    (h : envGet env githubTokenVar = none) :
    mainTrace env fetchedCount modifiedFlag = [Action.configError]
    ∧ Action.network ∉ mainTrace env fetchedCount modifiedFlag
    ∧ Action.fileRead ∉ mainTrace env fetchedCount modifiedFlag
    ∧ Action.fileWrite ∉ mainTrace env fetchedCount modifiedFlag := by
  have htr : mainTrace env fetchedCount modifiedFlag = [Action.configError] := by
    unfold mainTrace
    rw [h]
    rfl
  refine ⟨htr, ?_, ?_, ?_⟩ <;> rw [htr] <;> decide

/-- C9, witness. -/
theorem missing_token_reports_and_stops_witness :
    mainTrace [] 0 false = [Action.configError]
    ∧ Action.network ∉ mainTrace [] 0 false
    ∧ Action.fileRead ∉ mainTrace [] 0 false
    ∧ Action.fileWrite ∉ mainTrace [] 0 false :=
  missing_token_reports_and_stops [] 0 false (by decide)

/-- C10: the exact duplicate check is a raw substring test, so an entry
whose identifier is a proper prefix of a repository reference already in
the buffer (for example `org/repo` against `github.com/org/repo-extra`) is
skipped as a duplicate even though the entry itself is not documented. -/
theorem url_prefix_match_skips (category : Str) (st : MergeState) (e : Entry)
    (r : Str)
    (h1 : hasSub (urlStr r) st.content = true)
    (h2 : e.repo <+: r) (_h3 : e.repo ≠ r) :
    processEntry category st e = st := by
  have hpre : urlStr e.repo <+: urlStr r := by
    obtain ⟨t, ht⟩ := h2
    refine ⟨t, ?_⟩
    unfold urlStr
    rw [← ht, List.append_assoc]
  unfold processEntry
  split
  · rfl
  · rw [if_pos (hasSub_prefix_trans hpre h1)]

/-- C10, witness: `org/repo` is skipped because the buffer documents
`org/repo-extra`. -/
theorem url_prefix_match_skips_witness :
    processEntry ("S".data) wStC10 wEntC10 = wStC10 :=
  url_prefix_match_skips ("S".data) wStC10 wEntC10 ("org/repo-extra".data)
    (by decide) (by decide) (by decide)

end Fetch
